import Mathlib

/-!
Verification of the merge-and-summarize utility `src/merge_sheets_0_1.py`
(functions `merge_proteomics_datasets` and `get_protein_summary`).

Modelling conventions (shallow embedding):

* A cell value is `Option ℚ`: `none` models a missing value (pandas `NaN`),
  `some q` a present numeric value.
* A table row carries its composite key `(PatientID, Timepoint)` explicitly
  (the source always joins on exactly these two columns) together with a
  valuation of the non-key column names.  `Table.cols` lists the non-key
  (protein) column names in order; the two key columns are implicit.
* `pd.merge(..., on=['PatientID','Timepoint'], how='outer',
  suffixes=('', '_combat'))` is modelled by `outerMerge`: left rows in order,
  each matched against every right row sharing its key (cartesian expansion on
  duplicate keys), unmatched left rows kept with missing right cells, then the
  unmatched right rows appended; right column names that also occur on the
  left are suffixed with `_combat`.
* The reconciliation loop (`fillna` from the `_combat` column, then
  `drop(columns=[...])`) is `reconcileOne` / `reconcileAll`; pandas raises on
  duplicate column labels at the `fillna` step, which is modelled by returning
  `none`.  Python iterates over an (unordered) set of overlapping names; the
  model fixes the left table's column order, a deterministic refinement.
* `get_protein_summary` returns `none` exactly when every protein column is
  dropped: the source then builds `pd.DataFrame([])`, which has no
  `'Coverage (%)'` column, and `sort_values` raises a `KeyError`.
* `Series.std()` uses `ddof=1`; only its definedness (NaN for fewer than two
  observations) and its dependence on the non-missing values matter to the
  spec, so the summary's `std` field stores the sample variance as
  `Option ℚ` (`none` models NaN; pandas' Std is its square root, present and
  NaN in exactly the same cases).
* `sort_values('Coverage (%)', ascending=False)` uses the default
  `kind='quicksort'`, which pandas documents as unstable: the source fixes a
  descending coverage order but guarantees no particular order among tied
  rows.  The model must pick some computable sort, and uses
  `List.insertionSort` on `covGE`; theorems in this file rely on it only for
  properties that hold for every sort of the summary rows by descending
  coverage (membership, emptiness, row multiset) — never for the order of
  tied rows, which the program leaves implementation-defined.
-/

namespace ProteomicsMerge

/-- A cell value: `none` is pandas `NaN`. -/
abbrev Val := Option ℚ

/-- The composite key `(PatientID, Timepoint)`. -/
abbrev Key := String × String

/-- One row: its composite key and the values of the non-key columns. -/
structure Row where
  key : Key
  cell : String → Val

/-- A table: ordered non-key column names plus rows.  The key columns
`PatientID` / `Timepoint` are represented by `Row.key`, not by `cols`. -/
structure Table where
  cols : List String
  rows : List Row

/-- The suffix pandas appends to the right table's colliding columns
(`suffixes=('', '_combat')`). -/
def sfx : String := "_combat"

/-- `overlapping_cols = set(transformed_cols).intersection(set(combat_cols))`,
iterated here in the left table's column order. -/
def overlappingCols (A B : Table) : List String :=
  A.cols.filter (fun c => decide (c ∈ B.cols))

/-- The name a right-table column receives in the merged table: suffixed with
`_combat` when the left table also has the column. -/
def suffixName (A : Table) (c : String) : String :=
  if c ∈ A.cols then c ++ sfx else c

/-- Column names of the outer-merged table: left columns, then right columns
with colliding names suffixed. -/
def mergedCols (A B : Table) : List String :=
  A.cols ++ B.cols.map (suffixName A)

/-- The valuation of a merged row built from an optional left row `ra` and an
optional right row `rb` (`none` on a side means the key was unmatched there,
so that side contributes missing values). -/
def mergedCell (A B : Table) (ra rb : Option Row) (n : String) : Val :=
  if n ∈ A.cols then ra.bind (fun r => r.cell n)
  else if n ∈ B.cols then rb.bind (fun r => r.cell n)
  else
    match B.cols.find? (fun c => decide (c ∈ A.cols) && (c ++ sfx == n)) with
    | some c => rb.bind (fun r => r.cell c)
    | none => none

/-- The merged rows produced by one left row `ra`: one combined row per right
row sharing `ra`'s key (cartesian expansion on duplicate keys), or a single
row with missing right cells when no right row matches. -/
def mergeBlock (A B : Table) (ra : Row) : List Row :=
  let ms := B.rows.filter (fun rb => decide (rb.key = ra.key))
  if ms.isEmpty then
    [⟨ra.key, mergedCell A B (some ra) none⟩]
  else
    ms.map (fun rb => ⟨ra.key, mergedCell A B (some ra) (some rb)⟩)

/-- The merged rows coming from right rows whose key matches no left row;
their left cells are missing. -/
def rightOnlyRows (A B : Table) : List Row :=
  (B.rows.filter (fun rb =>
    ! A.rows.any (fun ra => decide (ra.key = rb.key)))).map
    (fun rb => ⟨rb.key, mergedCell A B none (some rb)⟩)

/-- `pd.merge(A, B, on=['PatientID','Timepoint'], how='outer',
suffixes=('', '_combat'))`. -/
def outerMerge (A B : Table) : Table :=
  { cols := mergedCols A B
    rows := (A.rows.map (mergeBlock A B)).flatten ++ rightOnlyRows A B }

/-- `merged_df[col] = merged_df[col].fillna(merged_df[combat_col])` applied to
one row: the primary cell keeps its value when present and is filled from the
secondary cell when missing; all other cells are untouched. -/
def fillCell (c cc : String) (r : Row) : Row :=
  ⟨r.key, fun n =>
    if n = c then
      match r.cell c with
      | some v => some v
      | none => r.cell cc
    else r.cell n⟩

/-- One iteration of the reconciliation loop for overlapping column `c`.
Skips when the suffixed column is absent (`if combat_col in merged_df.columns`).
When either label is duplicated, pandas' label lookup yields a `DataFrame` and
`fillna` raises, modelled as `none`.  Otherwise fill the primary column from
the secondary and drop the secondary (`drop(columns=[combat_col])`). -/
def reconcileOne (t : Table) (c : String) : Option Table :=
  if c ++ sfx ∈ t.cols then
    if t.cols.count c = 1 ∧ t.cols.count (c ++ sfx) = 1 then
      some { cols := t.cols.filter (fun n => !(n == c ++ sfx))
             rows := t.rows.map (fillCell c (c ++ sfx)) }
    else none
  else some t

/-- The reconciliation loop over the overlapping column names. -/
def reconcileAll (t : Table) : List String → Option Table
  | [] => some t
  | c :: cs =>
    match reconcileOne t c with
    | some t' => reconcileAll t' cs
    | none => none

/-- `merge_proteomics_datasets`, file I/O aside: outer-join the two tables and
reconcile every overlapping column.  `none` models an uncaught exception. -/
def merge_proteomics_datasets (A B : Table) : Option Table :=
  reconcileAll (outerMerge A B) (overlappingCols A B)

/-- Models `pd.read_csv`: a file system maps a path to the table it holds;
a missing path makes `read_csv` raise, modelled as `Except.error`. -/
def loadTable (fs : String → Option Table) (path : String) : Except String Table :=
  match fs path with
  | some t => Except.ok t
  | none => Except.error ("File not found: " ++ path)

/-- The whole `merge_proteomics_datasets` run including the two `read_csv`
calls.  `Except.ok t` means the merged table `t` was written to the output CSV
and returned; `Except.error e` means the run aborted with exception `e` before
writing the merged output. -/
def runMerge (fs : String → Option Table) (p₁ p₂ : String) :
    Except String Table :=
  match loadTable fs p₁ with
  | Except.error e => Except.error e
  | Except.ok A =>
    match loadTable fs p₂ with
    | Except.error e => Except.error e
    | Except.ok B =>
      match merge_proteomics_datasets A B with
      | some t => Except.ok t
      | none => Except.error "merge failed"

/-- One row of the protein summary.  `std` stores the sample variance
(`ddof=1`); `none` models pandas returning NaN for `Series.std()` on fewer
than two observations (the source's Std is its square root, defined in exactly
the same cases). -/
structure SummaryRow where
  protein : String
  coverage : ℚ
  count : ℕ
  min : ℚ
  max : ℚ
  mean : ℚ
  std : Option ℚ
deriving DecidableEq

/-- `df[protein].dropna()`: the non-missing values of a column, in row order. -/
def dropna (t : Table) (c : String) : List ℚ :=
  t.rows.filterMap (fun r => r.cell c)

/-- Minimum of a list of rationals (`Series.min`); only used on non-empty
lists. -/
def listMin : List ℚ → ℚ
  | [] => 0
  | x :: xs => xs.foldl min x

/-- Maximum of a list of rationals (`Series.max`); only used on non-empty
lists. -/
def listMax : List ℚ → ℚ
  | [] => 0
  | x :: xs => xs.foldl max x

/-- `Series.mean`. -/
def listMean (l : List ℚ) : ℚ := l.sum / (l.length : ℚ)

/-- The sample variance with `ddof=1`, `none` (pandas NaN) for fewer than two
observations.  `Series.std()` is its square root, NaN in exactly the same
cases. -/
def sampleVar (l : List ℚ) : Option ℚ :=
  if 2 ≤ l.length then
    some (((l.map (fun x => (x - listMean l) ^ 2)).sum) / ((l.length : ℚ) - 1))
  else none

/-- The summary row the source builds for protein column `c`. -/
def mkSummaryRow (t : Table) (c : String) : SummaryRow :=
  let d := dropna t c
  { protein := c
    coverage := ((d.length : ℚ) / (t.rows.length : ℚ)) * 100
    count := d.length
    min := listMin d
    max := listMax d
    mean := listMean d
    std := sampleVar d }

/-- The `summary_data` list: one row per protein column with at least one
non-missing value, in column order. -/
def summaryRows (t : Table) : List SummaryRow :=
  t.cols.filterMap (fun c =>
    if 0 < (dropna t c).length then some (mkSummaryRow t c) else none)

/-- The descending-coverage order used by
`sort_values('Coverage (%)', ascending=False)`. -/
def covGE (a b : SummaryRow) : Prop := b.coverage ≤ a.coverage

instance : DecidableRel covGE := fun a b => by
  unfold covGE; infer_instance

/-- `get_protein_summary`: build one summary row per protein column with data,
then sort by coverage descending.  The source's `sort_values` uses the
default unstable `kind='quicksort'`, so the order of rows with tied coverage
is implementation-defined; the model's `insertionSort` is one admissible
order, and is relied on only for tie-order-insensitive properties.  When no
column survives, `pd.DataFrame([])` has no `'Coverage (%)'` column and
`sort_values` raises a `KeyError`, modelled as `none`. -/
def get_protein_summary (t : Table) : Option (List SummaryRow) :=
  if (summaryRows t).isEmpty then none
  else some (List.insertionSort covGE (summaryRows t))

/-- Number of distinct composite keys occurring in a table. -/
def uniqueKeyCount (t : Table) : ℕ := (t.rows.map Row.key).toFinset.card

/-- The list of composite keys of a table's rows, in row order. -/
def keysOf (t : Table) : List Key := t.rows.map Row.key

/-- Builds a row from an association list of column values (missing
columns are `NaN`); used for concrete test tables. -/
def rowOf (k : Key) (l : List (String × ℚ)) : Row :=
  ⟨k, fun n => (l.find? (fun p => p.1 == n)).map Prod.snd⟩

/-- The merged table of a successful run, with an empty-table default;
used to state concrete instances. -/
def mergeResult (A B : Table) : Table :=
  (merge_proteomics_datasets A B).getD ⟨[], []⟩

/-! ### Basic facts about the outer merge -/

lemma mergeBlock_ne_nil (A B : Table) (ra : Row) : mergeBlock A B ra ≠ [] := by
  unfold mergeBlock
  dsimp only
  split
  · simp
  · next h =>
    simp only [ne_eq, List.map_eq_nil_iff]
    simpa [List.isEmpty_iff] using h

lemma key_of_mem_mergeBlock (A B : Table) (ra r : Row)
    (hr : r ∈ mergeBlock A B ra) : r.key = ra.key := by
  unfold mergeBlock at hr
  dsimp only at hr
  split at hr
  · simp at hr
    subst hr; rfl
  · rcases List.mem_map.mp hr with ⟨rb, _, hrb⟩
    subst hrb; rfl

lemma key_of_mem_rightOnlyRows (A B : Table) (r : Row)
    (hr : r ∈ rightOnlyRows A B) :
    ∃ rb ∈ B.rows, r.key = rb.key := by
  rcases List.mem_map.mp hr with ⟨rb, hrb, hrbr⟩
  exact ⟨rb, (List.mem_filter.mp hrb).1, by subst hrbr; rfl⟩

lemma mem_keysOf_outerMerge_of_left (A B : Table) (k : Key)
    (hk : k ∈ keysOf A) : k ∈ keysOf (outerMerge A B) := by
  rcases List.mem_map.mp hk with ⟨ra, hra, hrak⟩
  have hne := mergeBlock_ne_nil A B ra
  rcases List.exists_mem_of_ne_nil _ hne with ⟨r, hr⟩
  refine List.mem_map.mpr ⟨r, ?_, ?_⟩
  · exact List.mem_append.mpr (Or.inl (List.mem_flatten.mpr
      ⟨mergeBlock A B ra, List.mem_map.mpr ⟨ra, hra, rfl⟩, hr⟩))
  · rw [key_of_mem_mergeBlock A B ra r hr, hrak]

lemma mem_keysOf_outerMerge_of_right (A B : Table) (k : Key)
    (hk : k ∈ keysOf B) : k ∈ keysOf (outerMerge A B) := by
  rcases List.mem_map.mp hk with ⟨rb, hrb, hrbk⟩
  by_cases h : ∃ ra ∈ A.rows, ra.key = rb.key
  · rcases h with ⟨ra, hra, hkey⟩
    have hms : rb ∈ B.rows.filter (fun rb' => decide (rb'.key = ra.key)) :=
      List.mem_filter.mpr ⟨hrb, by simp [hkey]⟩
    have hblock : (⟨ra.key, mergedCell A B (some ra) (some rb)⟩ : Row)
        ∈ mergeBlock A B ra := by
      unfold mergeBlock
      dsimp only
      rw [if_neg (by simp [List.isEmpty_iff, List.ne_nil_of_mem hms])]
      exact List.mem_map.mpr ⟨rb, hms, rfl⟩
    refine List.mem_map.mpr ⟨_, List.mem_append.mpr (Or.inl
      (List.mem_flatten.mpr ⟨_, List.mem_map.mpr ⟨ra, hra, rfl⟩, hblock⟩)), ?_⟩
    simp [hkey, hrbk]
  · have hfil : rb ∈ B.rows.filter (fun rb' =>
        ! A.rows.any (fun ra => decide (ra.key = rb'.key))) := by
      refine List.mem_filter.mpr ⟨hrb, ?_⟩
      simp only [Bool.not_eq_true', List.any_eq_false]
      intro ra hra
      simpa using fun hkey => h ⟨ra, hra, hkey⟩
    refine List.mem_map.mpr ⟨⟨rb.key, mergedCell A B none (some rb)⟩,
      List.mem_append.mpr (Or.inr (List.mem_map.mpr ⟨rb, hfil, rfl⟩)), hrbk⟩

lemma length_le_length_flatten (l : List (List Row))
    (h : ∀ x ∈ l, x ≠ []) : l.length ≤ l.flatten.length := by
  induction l with
  | nil => simp
  | cons x xs ih =>
    have hx : 0 < x.length :=
      List.length_pos.mpr (h x (List.mem_cons_self _ _))
    have := ih (fun y hy => h y (List.mem_cons_of_mem _ hy))
    simp only [List.flatten_cons, List.length_append, List.length_cons]
    omega

lemma rows_length_left_le_outerMerge (A B : Table) :
    A.rows.length ≤ (outerMerge A B).rows.length := by
  have h1 : A.rows.length ≤ ((A.rows.map (mergeBlock A B)).flatten).length := by
    have := length_le_length_flatten (A.rows.map (mergeBlock A B)) (by
      intro x hx
      rcases List.mem_map.mp hx with ⟨ra, _, hrax⟩
      exact hrax ▸ mergeBlock_ne_nil A B ra)
    simpa using this
  calc A.rows.length ≤ ((A.rows.map (mergeBlock A B)).flatten).length := h1
    _ ≤ (outerMerge A B).rows.length := by
        simp [outerMerge]

/-! ### Reconciliation preserves rows' keys -/

lemma reconcileOne_keysOf (t : Table) (c : String) (t' : Table)
    (h : reconcileOne t c = some t') : keysOf t' = keysOf t := by
  unfold reconcileOne at h
  split at h
  · split at h
    · cases h
      simp only [keysOf, List.map_map]
      rfl
    · cases h
  · cases h
    rfl

lemma reconcileAll_keysOf (l : List String) (t t' : Table)
    (h : reconcileAll t l = some t') : keysOf t' = keysOf t := by
  induction l generalizing t with
  | nil =>
    cases h
    rfl
  | cons c cs ih =>
    unfold reconcileAll at h
    cases hr : reconcileOne t c with
    | none => rw [hr] at h; cases h
    | some t₁ =>
      rw [hr] at h
      exact (ih t₁ h).trans (reconcileOne_keysOf t c t₁ hr)

lemma rows_length_eq_of_keysOf_eq (t t' : Table)
    (h : keysOf t' = keysOf t) : t'.rows.length = t.rows.length := by
  have := congrArg List.length h
  simpa [keysOf] using this

/-! ### Claim C1 -/

/-- C1: for any input tables `A`, `B`, the merged table returned by
`merge_proteomics_datasets` has at least one row for every composite key
present in `A` or in `B` (no row is dropped), and its row count is at least
`max` of the unique-key counts of the two inputs. -/
theorem merge_no_row_dropped (A B t : Table)
    (h : merge_proteomics_datasets A B = some t) :
    uniqueKeyCount A ≤ t.rows.length ∧ uniqueKeyCount B ≤ t.rows.length ∧
    ∀ k : Key, (k ∈ keysOf A ∨ k ∈ keysOf B) → k ∈ keysOf t := by
  have hkeys : keysOf t = keysOf (outerMerge A B) :=
    reconcileAll_keysOf _ _ _ h
  have hmem : ∀ k : Key, (k ∈ keysOf A ∨ k ∈ keysOf B) → k ∈ keysOf t := by
    intro k hk
    rw [hkeys]
    rcases hk with hk | hk
    · exact mem_keysOf_outerMerge_of_left A B k hk
    · exact mem_keysOf_outerMerge_of_right A B k hk
  have hlen : t.rows.length = (outerMerge A B).rows.length :=
    rows_length_eq_of_keysOf_eq _ _ hkeys
  have hcard : ∀ S : Table,
      (∀ k : Key, k ∈ keysOf S → k ∈ keysOf t) →
      uniqueKeyCount S ≤ t.rows.length := by
    intro S hS
    have hsub : (keysOf S).toFinset ⊆ (keysOf t).toFinset := by
      intro k hk
      exact List.mem_toFinset.mpr (hS k (List.mem_toFinset.mp hk))
    calc uniqueKeyCount S ≤ (keysOf t).toFinset.card :=
          Finset.card_le_card hsub
      _ ≤ (keysOf t).length := (keysOf t).toFinset_card_le
      _ = t.rows.length := by simp [keysOf]
  exact ⟨hcard A (fun k hk => hmem k (Or.inl hk)),
    hcard B (fun k hk => hmem k (Or.inr hk)), hmem⟩

/-- Concrete table used to instantiate hypotheses: two keyed rows, one
protein column. -/
def tblA : Table :=
  ⟨["ProtA"], [rowOf ("P1", "T1") [("ProtA", 1)], rowOf ("P2", "T1") []]⟩

/-- Concrete table used to instantiate hypotheses: one keyed row, one
protein column. -/
def tblB : Table :=
  ⟨["ProtB"], [rowOf ("P3", "T2") [("ProtB", 5)]]⟩

theorem merge_no_row_dropped_witness :
    merge_proteomics_datasets tblA tblB = some (mergeResult tblA tblB) ∧
    uniqueKeyCount tblA ≤ (mergeResult tblA tblB).rows.length ∧
    uniqueKeyCount tblB ≤ (mergeResult tblA tblB).rows.length ∧
    (("P3", "T2") : Key) ∈ keysOf (mergeResult tblA tblB) := by
  have h : merge_proteomics_datasets tblA tblB = some (mergeResult tblA tblB) := rfl
  have := merge_no_row_dropped tblA tblB (mergeResult tblA tblB) h
  exact ⟨h, this.1, this.2.1, this.2.2 ("P3", "T2") (Or.inr (by
    simp [keysOf, tblB, rowOf]))⟩

/-! ### Basic facts about the summary -/

lemma mem_summaryRows (t : Table) (r : SummaryRow) :
    r ∈ summaryRows t ↔
      ∃ c ∈ t.cols, 0 < (dropna t c).length ∧ r = mkSummaryRow t c := by
  simp only [summaryRows, List.mem_filterMap]
  constructor
  · rintro ⟨c, hc, hr⟩
    by_cases h : 0 < (dropna t c).length
    · rw [if_pos h] at hr
      exact ⟨c, hc, h, (Option.some_inj.mp hr).symm⟩
    · rw [if_neg h] at hr
      cases hr
  · rintro ⟨c, hc, h, hr⟩
    exact ⟨c, hc, by rw [if_pos h, hr]⟩

lemma get_protein_summary_eq (t : Table) (s : List SummaryRow)
    (h : get_protein_summary t = some s) :
    s = List.insertionSort covGE (summaryRows t) := by
  unfold get_protein_summary at h
  split at h
  · cases h
  · exact (Option.some_inj.mp h).symm

lemma mem_of_summary (t : Table) (s : List SummaryRow)
    (h : get_protein_summary t = some s) (r : SummaryRow) :
    r ∈ s ↔ r ∈ summaryRows t := by
  rw [get_protein_summary_eq t s h]
  exact (List.perm_insertionSort covGE (summaryRows t)).mem_iff

/-! ### Claim C4 -/

/-- C4: every row of the summary produced by `get_protein_summary` has a
coverage percentage in `[0, 100]` and a count that is at most the merged
table's total row count. -/
theorem summary_bounds (t : Table) (s : List SummaryRow)
    (h : get_protein_summary t = some s) :
    ∀ r ∈ s, 0 ≤ r.coverage ∧ r.coverage ≤ 100 ∧ r.count ≤ t.rows.length := by
  intro r hr
  rcases (mem_summaryRows t r).mp ((mem_of_summary t s h r).mp hr) with
    ⟨c, _, hpos, hrc⟩
  subst hrc
  have hlen : (dropna t c).length ≤ t.rows.length :=
    List.length_filterMap_le _ _
  have htot : (0 : ℚ) < (t.rows.length : ℚ) := by
    have : 0 < t.rows.length := lt_of_lt_of_le hpos hlen
    exact_mod_cast this
  refine ⟨?_, ?_, hlen⟩
  · have h0 : (0 : ℚ) ≤ ((dropna t c).length : ℚ) / (t.rows.length : ℚ) :=
      div_nonneg (by positivity) (le_of_lt htot)
    simpa [mkSummaryRow] using mul_nonneg h0 (by norm_num : (0 : ℚ) ≤ 100)
  · have hdiv : ((dropna t c).length : ℚ) / (t.rows.length : ℚ) ≤ 1 :=
      (div_le_one htot).mpr (by exact_mod_cast hlen)
    have h100 := mul_le_mul_of_nonneg_right hdiv (by norm_num : (0 : ℚ) ≤ 100)
    simpa [mkSummaryRow] using h100

/-- The summary of a table, with an empty default; used for concrete
instances. -/
def summaryResult (t : Table) : List SummaryRow :=
  (get_protein_summary t).getD []

/-- Concrete merged-style table with an all-missing column `P2d`. -/
def tblD : Table :=
  ⟨["P1d", "P2d"], [rowOf ("A", "1") [("P1d", 2)]]⟩

theorem summary_bounds_witness :
    get_protein_summary tblD = some (summaryResult tblD) ∧
    mkSummaryRow tblD "P1d" ∈ summaryResult tblD ∧
    (0 ≤ (mkSummaryRow tblD "P1d").coverage ∧
      (mkSummaryRow tblD "P1d").coverage ≤ 100 ∧
      (mkSummaryRow tblD "P1d").count ≤ tblD.rows.length) := by
  have h : get_protein_summary tblD = some (summaryResult tblD) := rfl
  have hval : summaryResult tblD = [mkSummaryRow tblD "P1d"] := rfl
  have hm : mkSummaryRow tblD "P1d" ∈ summaryResult tblD := by
    rw [hval]
    exact List.mem_singleton.mpr rfl
  exact ⟨h, hm, summary_bounds tblD (summaryResult tblD) h _ hm⟩

/-! ### Claim C6 -/

/-- C6: a protein column with zero non-missing values is excluded from the
summary (its absence is not an error: the summary is still returned), while
the min/max/mean/std of every emitted row are computed over that column's
non-missing values (`dropna`) only. -/
theorem summary_stats_nonmissing (t : Table) (s : List SummaryRow)
    (h : get_protein_summary t = some s) :
    (∀ r ∈ s, 0 < (dropna t r.protein).length ∧
      r.min = listMin (dropna t r.protein) ∧
      r.max = listMax (dropna t r.protein) ∧
      r.mean = listMean (dropna t r.protein) ∧
      r.std = sampleVar (dropna t r.protein)) ∧
    (∀ c ∈ t.cols, (dropna t c).length = 0 → ∀ r ∈ s, r.protein ≠ c) := by
  constructor
  · intro r hr
    rcases (mem_summaryRows t r).mp ((mem_of_summary t s h r).mp hr) with
      ⟨c, _, hpos, hrc⟩
    subst hrc
    exact ⟨hpos, rfl, rfl, rfl, rfl⟩
  · intro c _ hc r hr hrc
    rcases (mem_summaryRows t r).mp ((mem_of_summary t s h r).mp hr) with
      ⟨c', _, hpos, hrc'⟩
    rw [hrc'] at hrc
    rw [show c' = c from hrc] at hpos
    omega

theorem summary_stats_nonmissing_witness :
    get_protein_summary tblD = some (summaryResult tblD) ∧
    mkSummaryRow tblD "P1d" ∈ summaryResult tblD ∧
    "P2d" ∈ tblD.cols ∧ (dropna tblD "P2d").length = 0 ∧
    (0 < (dropna tblD (mkSummaryRow tblD "P1d").protein).length ∧
      (mkSummaryRow tblD "P1d").min =
        listMin (dropna tblD (mkSummaryRow tblD "P1d").protein) ∧
      (mkSummaryRow tblD "P1d").max =
        listMax (dropna tblD (mkSummaryRow tblD "P1d").protein) ∧
      (mkSummaryRow tblD "P1d").mean =
        listMean (dropna tblD (mkSummaryRow tblD "P1d").protein) ∧
      (mkSummaryRow tblD "P1d").std =
        sampleVar (dropna tblD (mkSummaryRow tblD "P1d").protein)) ∧
    (mkSummaryRow tblD "P1d").protein ≠ "P2d" := by
  have h : get_protein_summary tblD = some (summaryResult tblD) := rfl
  have hval : summaryResult tblD = [mkSummaryRow tblD "P1d"] := rfl
  have hm : mkSummaryRow tblD "P1d" ∈ summaryResult tblD := by
    rw [hval]
    exact List.mem_singleton.mpr rfl
  have hc : "P2d" ∈ tblD.cols := by decide
  have h0 : (dropna tblD "P2d").length = 0 := by decide
  have hall := summary_stats_nonmissing tblD (summaryResult tblD) h
  exact ⟨h, hm, hc, h0, hall.1 _ hm, hall.2 "P2d" hc h0 _ hm⟩

/-! ### Claim C9 -/

/-- C9: on a merged table in which every protein column has zero non-missing
values (in particular a table with zero rows or no protein columns),
`get_protein_summary` raises (`sort_values` on the empty summary frame lacks
the `'Coverage (%)'` column), modelled as returning `none` instead of an
empty summary. -/
theorem summary_all_missing_raises (t : Table)
    (h : ∀ c ∈ t.cols, (dropna t c).length = 0) :
    get_protein_summary t = none := by
  have hrows : summaryRows t = [] := by
    refine List.filterMap_eq_nil_iff.mpr ?_
    intro c hc
    have h0 := h c hc
    rw [if_neg (by omega)]
  unfold get_protein_summary
  rw [hrows]
  rfl

/-- Concrete merged-style table with a protein column and zero rows. -/
def tblE : Table := ⟨["ProtE"], []⟩

theorem summary_all_missing_raises_witness :
    (∀ c ∈ tblE.cols, (dropna tblE c).length = 0) ∧
    get_protein_summary tblE = none := by
  have h : ∀ c ∈ tblE.cols, (dropna tblE c).length = 0 := by decide
  exact ⟨h, summary_all_missing_raises tblE h⟩

/-! ### Claim C10 -/

/-- C10: every protein column with exactly one non-missing value is emitted
by `get_protein_summary` with a missing (`none`, pandas NaN) `std` field: the
sample standard deviation (`ddof=1`) is undefined for a single observation. -/
theorem summary_std_single (t : Table) (s : List SummaryRow)
    (h : get_protein_summary t = some s) :
    (∀ r ∈ s, r.count = 1 → r.std = none) ∧
    (∀ c ∈ t.cols, (dropna t c).length = 1 →
      (mkSummaryRow t c ∈ s ∧ (mkSummaryRow t c).protein = c ∧
        (mkSummaryRow t c).count = 1 ∧ (mkSummaryRow t c).std = none)) := by
  constructor
  · intro r hr hcount
    rcases (mem_summaryRows t r).mp ((mem_of_summary t s h r).mp hr) with
      ⟨c, _, _, hrc⟩
    subst hrc
    have hlen : (dropna t c).length = 1 := hcount
    simp only [mkSummaryRow, sampleVar]
    rw [if_neg (by omega)]
  · intro c hc hlen
    have hmem : mkSummaryRow t c ∈ s :=
      (mem_of_summary t s h _).mpr
        ((mem_summaryRows t _).mpr ⟨c, hc, by omega, rfl⟩)
    refine ⟨hmem, rfl, hlen, ?_⟩
    simp only [mkSummaryRow, sampleVar]
    rw [if_neg (by omega)]

theorem summary_std_single_witness :
    get_protein_summary tblA = some (summaryResult tblA) ∧
    "ProtA" ∈ tblA.cols ∧ (dropna tblA "ProtA").length = 1 ∧
    (mkSummaryRow tblA "ProtA" ∈ summaryResult tblA ∧
      (mkSummaryRow tblA "ProtA").protein = "ProtA" ∧
      (mkSummaryRow tblA "ProtA").count = 1 ∧
      (mkSummaryRow tblA "ProtA").std = none) := by
  have h : get_protein_summary tblA = some (summaryResult tblA) := rfl
  have hc : "ProtA" ∈ tblA.cols := by decide
  have hlen : (dropna tblA "ProtA").length = 1 := by decide
  exact ⟨h, hc, hlen, (summary_std_single tblA (summaryResult tblA) h).2 "ProtA" hc hlen⟩

/-! ### Claim C8 -/

/-- C8: when either input file is missing, the run aborts: `read_csv`'s error
propagates (there is no handler in `merge_proteomics_datasets`), it is never
swallowed into an `ok` result, and the merged output CSV is not written (the
model's `Except.ok` is reached only after a successful merge). -/
theorem missing_input_aborts (fs : String → Option Table) (p₁ p₂ : String)
    (h : fs p₁ = none ∨ fs p₂ = none) :
    (∀ t : Table, runMerge fs p₁ p₂ ≠ Except.ok t) ∧
    (fs p₁ = none →
      runMerge fs p₁ p₂ = Except.error ("File not found: " ++ p₁)) ∧
    (fs p₁ ≠ none → fs p₂ = none →
      runMerge fs p₁ p₂ = Except.error ("File not found: " ++ p₂)) := by
  refine ⟨?_, ?_, ?_⟩
  · intro t hok
    unfold runMerge loadTable at hok
    rcases h with h1 | h2
    · rw [h1] at hok
      cases hok
    · cases hA : fs p₁ with
      | none => rw [hA] at hok; cases hok
      | some A =>
        rw [hA, h2] at hok
        cases hok
  · intro h1
    unfold runMerge loadTable
    rw [h1]
  · intro h1 h2
    unfold runMerge loadTable
    cases hA : fs p₁ with
    | none => exact absurd hA h1
    | some A => rw [h2]

/-- An empty file system: every path is missing. -/
def emptyFS : String → Option Table := fun _ => none

theorem missing_input_aborts_witness :
    (emptyFS "transformed.csv" = none ∨ emptyFS "combat.csv" = none) ∧
    runMerge emptyFS "transformed.csv" "combat.csv" =
      Except.error ("File not found: " ++ "transformed.csv") := by
  have h : emptyFS "transformed.csv" = none ∨ emptyFS "combat.csv" = none :=
    Or.inl rfl
  exact ⟨h,
    (missing_input_aborts emptyFS "transformed.csv" "combat.csv" h).2.1 rfl⟩

/-! ### Claim C2 -/

lemma forall₂_map_self {P : Row → Row → Prop} (f : Row → Row) (l : List Row)
    (h : ∀ r ∈ l, P r (f r)) : List.Forall₂ P l (l.map f) := by
  induction l with
  | nil => exact List.Forall₂.nil
  | cons r l ih =>
    exact List.Forall₂.cons (h r (List.mem_cons_self _ _))
      (ih (fun r' hr' => h r' (List.mem_cons_of_mem _ hr')))

/-- The first scenario table: `ProtX = (1, missing)` on keys
`(P1,T1), (P1,T2)`. -/
def tblA2 : Table :=
  ⟨["ProtX"], [rowOf ("P1", "T1") [("ProtX", 1)], rowOf ("P1", "T2") []]⟩

/-- The second scenario table: `ProtX = (missing, 5)` on the same keys. -/
def tblB2 : Table :=
  ⟨["ProtX"], [rowOf ("P1", "T1") [], rowOf ("P1", "T2") [("ProtX", 5)]]⟩

/-- The table after one reconciliation step on the scenario merge, with an
empty default; used to instantiate hypotheses. -/
def reconResult2 : Table :=
  (reconcileOne (outerMerge tblA2 tblB2) "ProtX").getD ⟨[], []⟩

/-- C2: one reconciliation step on an overlapping column `c` removes the
suffixed secondary column `c ++ "_combat"` from the columns and, row by row,
fills a missing primary cell from the secondary cell, never overwrites a
present primary value, and leaves every other column's cells untouched.
Moreover, on the spec's scenario (`A` has `ProtX = (1, missing)`, `B` has
`ProtX = (missing, 5)`, same two keys in matching order) the merged `ProtX`
column is `(1, 5)` and no `ProtX_combat` column remains. -/
theorem reconcile_fill_semantics :
    (∀ (t : Table) (c : String) (t' : Table),
      reconcileOne t c = some t' → (c ++ sfx) ∈ t.cols →
      t'.cols = t.cols.filter (fun n => !(n == c ++ sfx)) ∧
      List.Forall₂ (fun r r' : Row =>
        r'.key = r.key ∧
        (∀ v : ℚ, r.cell c = some v → r'.cell c = some v) ∧
        (r.cell c = none → r'.cell c = r.cell (c ++ sfx)) ∧
        (∀ n : String, n ≠ c → r'.cell n = r.cell n)) t.rows t'.rows) ∧
    (merge_proteomics_datasets tblA2 tblB2 = some (mergeResult tblA2 tblB2) ∧
      (mergeResult tblA2 tblB2).cols = ["ProtX"] ∧
      "ProtX_combat" ∉ (mergeResult tblA2 tblB2).cols ∧
      (mergeResult tblA2 tblB2).rows.map (fun r => r.cell "ProtX")
        = [some 1, some 5]) := by
  constructor
  · intro t c t' h hcc
    unfold reconcileOne at h
    rw [if_pos hcc] at h
    split at h
    · cases h
      refine ⟨rfl, forall₂_map_self _ _ ?_⟩
      intro r _
      refine ⟨rfl, ?_, ?_, ?_⟩
      · intro v hv
        simp [fillCell, hv]
      · intro hv
        simp [fillCell, hv]
      · intro n hn
        simp only [fillCell, if_neg hn]
    · cases h
  · refine ⟨rfl, by decide, by decide, by decide⟩

theorem reconcile_fill_semantics_witness :
    reconcileOne (outerMerge tblA2 tblB2) "ProtX" = some reconResult2 ∧
    ("ProtX" ++ sfx) ∈ (outerMerge tblA2 tblB2).cols ∧
    (reconResult2.cols = (outerMerge tblA2 tblB2).cols.filter
        (fun n => !(n == "ProtX" ++ sfx)) ∧
      List.Forall₂ (fun r r' : Row =>
        r'.key = r.key ∧
        (∀ v : ℚ, r.cell "ProtX" = some v → r'.cell "ProtX" = some v) ∧
        (r.cell "ProtX" = none → r'.cell "ProtX" = r.cell ("ProtX" ++ sfx)) ∧
        (∀ n : String, n ≠ "ProtX" → r'.cell n = r.cell n))
        (outerMerge tblA2 tblB2).rows reconResult2.rows) := by
  have h : reconcileOne (outerMerge tblA2 tblB2) "ProtX" = some reconResult2 := rfl
  have hcc : ("ProtX" ++ sfx) ∈ (outerMerge tblA2 tblB2).cols := by decide
  exact ⟨h, hcc, reconcile_fill_semantics.1 _ "ProtX" reconResult2 h hcc⟩

/-! ### Claim C7 -/

lemma filter_key_length_le_one (rows : List Row)
    (hn : (rows.map Row.key).Nodup) (k : Key) :
    (rows.filter (fun rb => decide (rb.key = k))).length ≤ 1 := by
  induction rows with
  | nil => simp
  | cons rb rest ih =>
    simp only [List.map_cons, List.nodup_cons] at hn
    by_cases hk : rb.key = k
    · have hrest : rest.filter (fun rb' => decide (rb'.key = k)) = [] := by
        refine List.filter_eq_nil_iff.mpr ?_
        intro rb' hrb'
        simp only [decide_eq_true_eq]
        intro hkey
        exact hn.1 (by
          rw [show rb.key = rb'.key from hk.trans hkey.symm]
          exact List.mem_map_of_mem Row.key hrb')
      rw [List.filter_cons_of_pos (by simp [hk]), hrest]
      simp
    · rw [List.filter_cons_of_neg (by simp [hk])]
      exact ih hn.2

lemma mergeBlock_keys_of_nodup (A B : Table) (ra : Row)
    (hB : (keysOf B).Nodup) :
    (mergeBlock A B ra).map Row.key = [ra.key] := by
  unfold mergeBlock
  dsimp only
  by_cases hms : (B.rows.filter (fun rb => decide (rb.key = ra.key))).isEmpty
  · rw [if_pos hms]
    rfl
  · rw [if_neg hms]
    have hle := filter_key_length_le_one B.rows hB ra.key
    have hpos : 0 < (B.rows.filter (fun rb => decide (rb.key = ra.key))).length := by
      cases hl : B.rows.filter (fun rb => decide (rb.key = ra.key)) with
      | nil => rw [hl] at hms; simp at hms
      | cons x xs => simp
    have hone : (B.rows.filter (fun rb => decide (rb.key = ra.key))).length = 1 :=
      le_antisymm hle hpos
    rcases List.length_eq_one.mp hone with ⟨rb, hrb⟩
    rw [hrb]
    rfl

lemma flatten_map_singleton_key (l : List Row) :
    (l.map (fun ra => [ra.key])).flatten = l.map Row.key := by
  induction l with
  | nil => rfl
  | cons a l ih => simp [ih]

lemma map_key_rightOnlyRows (A B : Table) :
    (rightOnlyRows A B).map Row.key =
      (B.rows.filter (fun rb =>
        ! A.rows.any (fun ra => decide (ra.key = rb.key)))).map Row.key := by
  unfold rightOnlyRows
  rw [List.map_map]
  rfl

lemma map_key_flatten_blocks (A B : Table) (hB : (keysOf B).Nodup) :
    ∀ l : List Row,
      ((l.map (mergeBlock A B)).flatten).map Row.key = l.map Row.key := by
  intro l
  induction l with
  | nil => rfl
  | cons ra l ih =>
    simp only [List.map_cons, List.flatten_cons, List.map_append, ih,
      mergeBlock_keys_of_nodup A B ra hB]
    rfl

lemma keysOf_outerMerge_nodupB (A B : Table) (hB : (keysOf B).Nodup) :
    keysOf (outerMerge A B) = keysOf A ++ (rightOnlyRows A B).map Row.key := by
  unfold keysOf outerMerge
  dsimp only
  rw [List.map_append]
  congr 1
  exact map_key_flatten_blocks A B hB A.rows

/-- C7 (amended): provided each input table's composite keys are unique
within that table, the merged table written by `merge_proteomics_datasets`
has exactly one row per unique composite key: its key list has no duplicate,
and the keys present are exactly the union of the two inputs' keys.  (The
unamended claim fails on duplicate keys, see the counterexample.) -/
theorem merge_unique_keys (A B t : Table)
    (hA : (keysOf A).Nodup) (hB : (keysOf B).Nodup)
    (h : merge_proteomics_datasets A B = some t) :
    (keysOf t).Nodup ∧
    ∀ k : Key, k ∈ keysOf t ↔ (k ∈ keysOf A ∨ k ∈ keysOf B) := by
  have hk : keysOf t = keysOf (outerMerge A B) :=
    reconcileAll_keysOf _ _ _ h
  have hstruct : keysOf (outerMerge A B)
      = keysOf A ++ (rightOnlyRows A B).map Row.key :=
    keysOf_outerMerge_nodupB A B hB
  constructor
  · rw [hk, hstruct]
    refine List.Nodup.append hA ?_ ?_
    · rw [map_key_rightOnlyRows]
      exact ((List.filter_sublist B.rows).map Row.key).nodup hB
    · intro k hkA hkR
      rw [map_key_rightOnlyRows] at hkR
      rcases List.mem_map.mp hkR with ⟨rb, hrb, hrbk⟩
      have hnot := (List.mem_filter.mp hrb).2
      simp only [Bool.not_eq_true', List.any_eq_false, decide_eq_false_iff_not] at hnot
      rcases List.mem_map.mp hkA with ⟨ra, hra, hrak⟩
      exact hnot ra hra (by rw [hrak, ← hrbk]; exact decide_eq_true rfl)
  · intro k
    constructor
    · intro hk'
      rw [hk, hstruct] at hk'
      rcases List.mem_append.mp hk' with h1 | h2
      · exact Or.inl h1
      · rw [map_key_rightOnlyRows] at h2
        rcases List.mem_map.mp h2 with ⟨rb, hrb, hrbk⟩
        exact Or.inr (hrbk ▸
          List.mem_map_of_mem Row.key (List.mem_filter.mp hrb).1)
    · intro hk'
      rw [hk]
      rcases hk' with h1 | h2
      · exact mem_keysOf_outerMerge_of_left A B k h1
      · exact mem_keysOf_outerMerge_of_right A B k h2

theorem merge_unique_keys_witness :
    (keysOf tblA).Nodup ∧ (keysOf tblB).Nodup ∧
    merge_proteomics_datasets tblA tblB = some (mergeResult tblA tblB) ∧
    (keysOf (mergeResult tblA tblB)).Nodup ∧
    ((("P1", "T1") : Key) ∈ keysOf (mergeResult tblA tblB) ↔
      ((("P1", "T1") : Key) ∈ keysOf tblA ∨ (("P1", "T1") : Key) ∈ keysOf tblB)) := by
  have hA : (keysOf tblA).Nodup := by decide
  have hB : (keysOf tblB).Nodup := by decide
  have h : merge_proteomics_datasets tblA tblB = some (mergeResult tblA tblB) := rfl
  have hall := merge_unique_keys tblA tblB (mergeResult tblA tblB) hA hB h
  exact ⟨hA, hB, h, hall.1, hall.2 ("P1", "T1")⟩

/-- A table whose composite key `(P1, T1)` occurs on two rows. -/
def tblDup : Table := ⟨[], [rowOf ("P1", "T1") [], rowOf ("P1", "T1") []]⟩

/-- A table with a single row keyed `(P1, T1)`. -/
def tblOne : Table := ⟨[], [rowOf ("P1", "T1") []]⟩

/-- C7 counterexample: with a duplicate key in one input, the merged table
returned (and written) by `merge_proteomics_datasets` has two rows for the
single unique composite key `(P1, T1)` — not exactly one row per unique key. -/
theorem merge_duplicate_keys_counterexample :
    merge_proteomics_datasets tblDup tblOne = some (mergeResult tblDup tblOne) ∧
    keysOf (mergeResult tblDup tblOne) = [("P1", "T1"), ("P1", "T1")] ∧
    uniqueKeyCount (mergeResult tblDup tblOne) = 1 ∧
    (mergeResult tblDup tblOne).rows.length = 2 := by
  refine ⟨rfl, by decide, by decide, by decide⟩

/-! ### Claim C3 -/

lemma append_sfx_injective {a b : String} (h : a ++ sfx = b ++ sfx) : a = b := by
  have h2 := congrArg String.data h
  simp only [String.data_append] at h2
  exact String.ext (List.append_left_injective _ h2)

lemma reconcileAll_cols (l : List String) :
    ∀ t t' : Table, l.Nodup → (∀ c ∈ l, c ++ sfx ∈ t.cols) →
      reconcileAll t l = some t' →
      t'.cols = t.cols.filter (fun n => decide (n ∉ l.map (· ++ sfx))) := by
  induction l with
  | nil =>
    intro t t' _ _ h
    cases h
    exact (List.filter_eq_self.mpr (fun n _ => by simp)).symm
  | cons c cs ih =>
    intro t t' hl hin h
    have hcc : c ++ sfx ∈ t.cols := hin c (List.mem_cons_self _ _)
    unfold reconcileAll at h
    cases hr : reconcileOne t c with
    | none => rw [hr] at h; cases h
    | some t₁ =>
      rw [hr] at h
      unfold reconcileOne at hr
      rw [if_pos hcc] at hr
      split at hr
      · have ht₁ : t₁ = ⟨t.cols.filter (fun n => !(n == c ++ sfx)),
            t.rows.map (fillCell c (c ++ sfx))⟩ := (Option.some_inj.mp hr).symm
        subst ht₁
        simp only [List.nodup_cons] at hl
        have hin' : ∀ d ∈ cs,
            d ++ sfx ∈ t.cols.filter (fun n => !(n == c ++ sfx)) := by
          intro d hd
          refine List.mem_filter.mpr ⟨hin d (List.mem_cons_of_mem _ hd), ?_⟩
          have hne : d ++ sfx ≠ c ++ sfx := fun he =>
            hl.1 (append_sfx_injective he ▸ hd)
          simp [hne]
        have hcols := ih _ t' hl.2 hin' h
        rw [hcols, List.filter_filter]
        refine List.filter_congr ?_
        intro n _
        by_cases h1 : n = c ++ sfx <;> by_cases h2 : n ∈ cs.map (· ++ sfx) <;>
          simp [h1, h2]
      · cases hr

lemma mem_overlappingCols (A B : Table) (c : String) :
    c ∈ overlappingCols A B ↔ c ∈ A.cols ∧ c ∈ B.cols := by
  simp [overlappingCols, List.mem_filter]

lemma map_suffixName_filter (A B : Table) :
    ∀ l : List String, (∀ c ∈ l, c ∈ B.cols) →
      (l.map (suffixName A)).filter
          (fun n => decide (n ∉ (overlappingCols A B).map (· ++ sfx)))
        = l.filter (fun c => decide (c ∉ A.cols) &&
            decide (c ∉ (overlappingCols A B).map (· ++ sfx))) := by
  intro l
  induction l with
  | nil => intro _; rfl
  | cons c l ih =>
    intro hl
    have hcB : c ∈ B.cols := hl c (List.mem_cons_self _ _)
    have hrest := ih (fun d hd => hl d (List.mem_cons_of_mem _ hd))
    by_cases hA : c ∈ A.cols
    · have hov : c ∈ overlappingCols A B := (mem_overlappingCols A B c).mpr ⟨hA, hcB⟩
      have hsfx : (c ++ sfx) ∈ (overlappingCols A B).map (· ++ sfx) :=
        List.mem_map_of_mem _ hov
      have hs : suffixName A c = c ++ sfx := if_pos hA
      rw [List.map_cons, hs, List.filter_cons_of_neg (by simpa using hsfx),
        List.filter_cons_of_neg (by simp [hA])]
      exact hrest
    · have hs : suffixName A c = c := if_neg hA
      rw [List.map_cons, hs]
      by_cases hc : c ∈ (overlappingCols A B).map (· ++ sfx)
      · rw [List.filter_cons_of_neg (by simpa using hc),
          List.filter_cons_of_neg (by simp [hc])]
        exact hrest
      · rw [List.filter_cons_of_pos (by simpa using hc),
          List.filter_cons_of_pos (by simp [hA, hc]), hrest]

lemma mergedCols_filter_nodup (A B : Table)
    (hA : A.cols.Nodup) (hB : B.cols.Nodup) :
    ((mergedCols A B).filter
      (fun n => decide (n ∉ (overlappingCols A B).map (· ++ sfx)))).Nodup := by
  unfold mergedCols
  rw [List.filter_append]
  refine List.Nodup.append (hA.filter _) ?_ ?_
  · rw [map_suffixName_filter A B B.cols (fun c hc => hc)]
    exact hB.filter _
  · intro n hn1 hn2
    have hnA : n ∈ A.cols := (List.mem_filter.mp hn1).1
    rw [map_suffixName_filter A B B.cols (fun c hc => hc)] at hn2
    have := (List.mem_filter.mp hn2).2
    simp only [Bool.and_eq_true, decide_eq_true_eq] at this
    exact this.1 hnA

/-- C3: for input tables with duplicate-free column names (as `read_csv`
guarantees, deduplicating headers), any merged table actually returned by
`merge_proteomics_datasets` has no duplicate column name.  (In the
pathological suffix-collision cases the reconciliation loop raises — the
model's `none` — before any table is returned.) -/
theorem merged_cols_nodup (A B t : Table)
    (hA : A.cols.Nodup) (hB : B.cols.Nodup)
    (h : merge_proteomics_datasets A B = some t) : t.cols.Nodup := by
  have hov : (overlappingCols A B).Nodup := hA.filter _
  have hin : ∀ c ∈ overlappingCols A B,
      c ++ sfx ∈ (outerMerge A B).cols := by
    intro c hc
    rcases (mem_overlappingCols A B c).mp hc with ⟨hcA, hcB⟩
    have : suffixName A c = c ++ sfx := if_pos hcA
    refine List.mem_append.mpr (Or.inr ?_)
    exact this ▸ List.mem_map_of_mem (suffixName A) hcB
  have hcols := reconcileAll_cols (overlappingCols A B) (outerMerge A B) t
    hov hin h
  rw [hcols]
  exact mergedCols_filter_nodup A B hA hB

theorem merged_cols_nodup_witness :
    tblA.cols.Nodup ∧ tblB.cols.Nodup ∧
    merge_proteomics_datasets tblA tblB = some (mergeResult tblA tblB) ∧
    (mergeResult tblA tblB).cols.Nodup := by
  have hA : tblA.cols.Nodup := by decide
  have hB : tblB.cols.Nodup := by decide
  have h : merge_proteomics_datasets tblA tblB = some (mergeResult tblA tblB) := rfl
  exact ⟨hA, hB, h, merged_cols_nodup tblA tblB (mergeResult tblA tblB) hA hB h⟩

end ProteomicsMerge
